import Mathlib

/-!
Verification of the summer-movie-pool repository: a shallow embedding of the
normalization, matching/ranking and scoring core (`summer_pool.py` and the two
variants of `summer_box_office_fetcher.py`), together with theorems checking
the natural-language specification against it.

Strings are modelled as Lean `String`s (lists of characters); Python's
`str.lower` and `str.strip` are modelled on the ASCII range, which is the
range the normalization keeps anyway.
-/

namespace SummerPool

/-- ASCII lowercasing of one character, as Python `str.lower` acts on
the ASCII range. -/
def lowerChar (c : Char) : Char :=
  if 65 ≤ c.toNat ∧ c.toNat ≤ 90 then Char.ofNat (c.toNat + 32) else c

/-- Characters kept by the regex `[^a-z0-9]` removal: lowercase ASCII
letters and digits. -/
def isKeyChar (c : Char) : Bool :=
  (97 ≤ c.toNat && c.toNat ≤ 122) || (48 ≤ c.toNat && c.toNat ≤ 57)

/-- `normalize` / `normalize_title`: `re.sub(r'[^a-z0-9]', '', title.lower())`. -/
def normalize (s : String) : String :=
  String.mk ((s.toList.map lowerChar).filter isKeyChar)

/-- ASCII whitespace, as matched by Python's `str.strip` and `\s`. -/
def isSpaceChar (c : Char) : Bool :=
  c = ' ' || c = '\t' || c = '\n' || c.toNat = 11 || c.toNat = 12 || c = '\r'

/-- Python `str.strip()`: drop leading and trailing whitespace. -/
def pyStrip (s : String) : String :=
  String.mk (((s.toList.dropWhile isSpaceChar).reverse.dropWhile isSpaceChar).reverse)

/-- Python `str.lower()` on a whole string (ASCII range). -/
def lowerStr (s : String) : String :=
  String.mk (s.toList.map lowerChar)

theorem lowerChar_of_isKeyChar {c : Char} (h : isKeyChar c = true) : lowerChar c = c := by
  simp only [isKeyChar, Bool.or_eq_true, Bool.and_eq_true, decide_eq_true_eq] at h
  simp only [lowerChar, ite_eq_right_iff]
  intro hc
  omega

theorem isKeyChar_lowerChar_of_isKeyChar {c : Char} (h : isKeyChar c = true) :
    isKeyChar (lowerChar c) = true := by
  rw [lowerChar_of_isKeyChar h]; exact h

theorem normalize_idem (s : String) : normalize (normalize s) = normalize s := by
  show String.mk _ = String.mk _
  congr 1
  have : ∀ l : List Char, (∀ c ∈ l, isKeyChar c = true) →
      (l.map lowerChar).filter isKeyChar = l := by
    intro l hl
    induction l with
    | nil => rfl
    | cons c cs ih =>
      have hc : isKeyChar c = true := hl c (List.mem_cons_self c cs)
      simp only [List.map_cons, List.filter_cons, lowerChar_of_isKeyChar hc, hc,
        List.cons.injEq, true_and, if_true]
      exact ih (fun d hd => hl d (List.mem_cons_of_mem c hd))
  exact this _ (fun c hc => List.of_mem_filter hc)

/-! ## Distributor normalization (august variant of the fetcher) -/

/-- The alias table inside `normalize_distributor`
(`src/august distributor update/summer_box_office_fetcher.py`). -/
def DIST_ALIASES : List (String × String) :=
  [("Walt Disney Studios Motion Pictures", "Walt Disney"),
   ("Walt Disney Pictures", "Walt Disney"),
   ("Disney", "Walt Disney"),
   ("Buena Vista", "Walt Disney"),
   ("Warner Bros. Pictures", "Warner Bros."),
   ("Warner Bros", "Warner Bros."),
   ("Warner Brothers", "Warner Bros."),
   ("Universal Pictures", "Universal"),
   ("Universal Pictures Distribution", "Universal"),
   ("Focus Features", "Universal"),
   ("Sony Pictures Releasing", "Sony Pictures"),
   ("Sony Pictures Entertainment (SPE)", "Sony Pictures"),
   ("Sony", "Sony Pictures"),
   ("TriStar Pictures", "Sony Pictures"),
   ("Columbia Pictures", "Sony Pictures"),
   ("Paramount Pictures", "Paramount Pictures"),
   ("Paramount", "Paramount Pictures"),
   ("Lionsgate", "Lionsgate"),
   ("Lions Gate Films", "Lionsgate"),
   ("A24 Films", "A24"),
   ("A24 Distribution", "A24"),
   ("20th Century Studios", "Walt Disney"),
   ("Searchlight Pictures", "Walt Disney")]

/-- `normalize_distributor`: a falsy (empty / missing) name yields `"Unknown"`,
otherwise the stripped name is pushed through the alias table, unmapped names
passing through stripped but otherwise verbatim. -/
def normalizeDistributor (name : String) : String :=
  if name = "" then "Unknown"
  else
    let n := pyStrip name
    (DIST_ALIASES.lookup n).getD n

/-! ## The multi-distributor splitter

`re.split(r"\s*(?:/|&|,| and )\s*", s, flags=re.IGNORECASE)`: scanning left to
right, a separator is an optional whitespace run followed by `/`, `&`, `,`, or
the literal word `" and "` (case-insensitive, with literal space characters on
both sides), followed by an optional whitespace run.  Because the `" and "`
alternative begins with a literal space, the regex engine backtracks one
character of the whitespace run to match it; this is reproduced below. -/

/-- Try to match one separator at the head of `cs`; on success return the
remainder after the separator (trailing whitespace consumed). -/
def trySep (cs : List Char) : Option (List Char) :=
  let w := (cs.takeWhile isSpaceChar).length
  match cs.drop w with
  | '/' :: r => some (r.dropWhile isSpaceChar)
  | '&' :: r => some (r.dropWhile isSpaceChar)
  | ',' :: r => some (r.dropWhile isSpaceChar)
  | c1 :: c2 :: c3 :: ' ' :: r =>
    if 1 ≤ w ∧ cs.getD (w - 1) ' ' = ' ' ∧ (c1 = 'a' ∨ c1 = 'A') ∧
        (c2 = 'n' ∨ c2 = 'N') ∧ (c3 = 'd' ∨ c3 = 'D') then
      some (r.dropWhile isSpaceChar)
    else none
  | _ => none

/-- Left-to-right scan emitting the fields between separators.  The fuel is an
upper bound on the number of steps; every step either consumes one character
into the accumulator or at least one character through `trySep`, so an initial
fuel of `cs.length` is always sufficient. -/
def splitAux : Nat → List Char → List Char → List (List Char)
  | _, acc, [] => [acc.reverse]
  | 0, acc, rest => [acc.reverse ++ rest]
  | fuel + 1, acc, c :: cs =>
    match trySep (c :: cs) with
    | some rest => acc.reverse :: splitAux fuel [] rest
    | none => splitAux fuel (c :: acc) cs

/-- `splitter.split(s)` from `get_top_distributors_for_summer`. -/
def splitSep (s : String) : List String :=
  (splitAux s.toList.length [] s.toList).map String.mk

/-! ## Summer-window distributor aggregation -/

/-- A calendar date as Python's `datetime` compares it (lexicographically). -/
structure PyDate where
  year : Nat
  month : Nat
  day : Nat
deriving DecidableEq, Repr

/-- Lexicographic strict order on dates, as `datetime.__lt__`. -/
def dateLT (a b : PyDate) : Bool :=
  if a.year < b.year then true
  else if b.year < a.year then false
  else if a.month < b.month then true
  else if b.month < a.month then false
  else a.day < b.day

/-- One row from `fetch_year_movies_with_distributors`: an optional (possibly
unparseable) release date, the raw distributor string and the gross. -/
structure BORow where
  release : Option PyDate
  dist : String
  gross : Int
deriving DecidableEq, Repr

/-- `in_summer`: a missing date is never in the window; otherwise
`datetime(2025,5,1) <= dt < datetime(2025,9,1)`. -/
def inSummer (o : Option PyDate) : Bool :=
  match o with
  | none => false
  | some dt => !dateLT dt ⟨2025, 5, 1⟩ && dateLT dt ⟨2025, 9, 1⟩

/-- `totals[dist] = totals.get(dist, 0) + gross` on an insertion-ordered
dictionary modelled as an association list. -/
def bump (l : List (String × Int)) (k : String) (g : Int) : List (String × Int) :=
  match l with
  | [] => [(k, g)]
  | (k₁, v) :: rest => if k₁ = k then (k₁, v + g) :: rest else (k₁, v) :: bump rest k g

/-- The inner loop of the aggregation: split the raw distributor string, skip
parts that strip to nothing, and add the row's full gross to each remaining
canonical distributor. -/
def applyRowParts (acc : List (String × Int)) (row : BORow) : List (String × Int) :=
  (splitSep row.dist).foldl
    (fun a part => if pyStrip part = "" then a else bump a (normalizeDistributor part) row.gross)
    acc

/-- The aggregation loop of `get_top_distributors_for_summer`: rows outside the
summer window or with non-positive gross are skipped. -/
def summerTotals (rows : List BORow) : List (String × Int) :=
  rows.foldl
    (fun acc row =>
      if inSummer row.release = true ∧ 0 < row.gross then applyRowParts acc row else acc)
    []

/-- Stable insertion into a descending run: the new element goes before the
first element whose key is not larger, so equal keys keep input order. -/
def insDesc {α : Type} (key : α → Int) (x : α) : List α → List α
  | [] => [x]
  | y :: ys => if key x < key y then y :: insDesc key x ys else x :: y :: ys

/-- Stable descending sort by an integer key: Python's stable
`sorted(..., key=..., reverse=True)`. -/
def sortByDesc {α : Type} (key : α → Int) : List α → List α
  | [] => []
  | x :: xs => insDesc key x (sortByDesc key xs)

/-- `get_top_distributors_for_summer`: aggregate, sort by total descending
(stably), truncate to `limit`. -/
def getTopDistributors (rows : List BORow) (limit : Nat) : List (String × Int) :=
  (sortByDesc (fun kv => kv.2) (summerTotals rows)).take limit

/-! ## Top-10 movie matching and ranking (`get_top_10_summer_movies`) -/

/-- A ranked movie: the reference-list casing of the title and the gross. -/
structure RankedMovie where
  title : String
  gross : Int
deriving DecidableEq, Repr

/-- Lookup in `norm_map = { normalize(t): t for t in raw }`: on duplicate
normalized keys the later reference entry overwrites the earlier one, so the
lookup searches the reversed list. -/
def normMapLookup (refs : List String) (k : String) : Option String :=
  refs.reverse.find? (fun t => normalize t == k)

/-- The matching loop: keep the source rows whose normalized title is a key of
`norm_map`, emitting the reference casing with the source gross. -/
def matchedMovies (refs : List String) (rows : List (String × Int)) : List RankedMovie :=
  rows.filterMap (fun p => (normMapLookup refs (normalize p.1)).map (fun t => ⟨t, p.2⟩))

/-- `get_top_10_summer_movies`: match, sort by gross descending (stable),
truncate to 10. -/
def getTop10SummerMovies (refs : List String) (rows : List (String × Int)) : List RankedMovie :=
  (sortByDesc (fun m => m.gross) (matchedMovies refs rows)).take 10

/-! ## Reference-list loader (`load_summer_list`) -/

/-- `first[0].lstrip(u-FEFF)`: drop every leading byte-order marker. -/
def lstripBOM (s : String) : String :=
  String.mk (s.toList.dropWhile (fun c => c = Char.ofNat 0xFEFF))

/-- Drop trailing whitespace (the `\s*` swallowed by the annotation regex). -/
def rstripWS (l : List Char) : List Char :=
  (l.reverse.dropWhile isSpaceChar).reverse

/-- `re.sub(r"\s*\(.*\)$", "", raw)`: when the string ends in `)` and contains
a `(`, the leftmost match starts at the whitespace run before the first `(`
and runs to the end; otherwise the string is unchanged. -/
def stripAnnotL (l : List Char) : List Char :=
  match l.getLast? with
  | some ')' =>
    match l.findIdx? (fun c => c = '(') with
    | some j => rstripWS (l.take j)
    | none => l
  | _ => l

/-- `clean = re.sub(r"\s*\(.*\)$", "", field.strip()).strip()`, the per-row
cleaning of `load_summer_list`. -/
def cleanTitle (s : String) : String :=
  pyStrip (String.mk (stripAnnotL (pyStrip s).toList))

/-- `load_summer_list` on the already-parsed CSV rows (each row a list of
fields).  The first row gets BOM removal and the `movie`/`title` header check;
every row whose raw first field strips to nothing is skipped — note the
emptiness test is on the raw field, before the annotation is stripped. -/
def loadSummerList (rows : List (List String)) : List String :=
  match rows with
  | [] => []
  | first :: rest =>
    let headTitles :=
      match first.head? with
      | none => []
      | some f0 =>
        if pyStrip f0 = "" then []
        else
          let clean := cleanTitle (lstripBOM f0)
          if lowerStr clean = "movie" ∨ lowerStr clean = "title" then [] else [clean]
    headTitles ++ rest.filterMap (fun row =>
      match row.head? with
      | none => none
      | some f => if pyStrip f = "" then none else some (cleanTitle f))

/-! ## Entries loader (`load_entries`, `summer_pool.py`) -/

/-- The manual monthly opening-weekend winners constant. -/
def MONTHLY_WINNERS : List (String × String) :=
  [("May", "Lilo & Stitch"), ("June", "How to Train Your Dragon"),
   ("July", "Superman"), ("August", "Weapons")]

/-- `DIST_HEADER_VARIANTS`. -/
def DIST_HEADER_VARIANTS : List (String × String × String) :=
  [("Dist 1", "Dist 2", "Dist 3"),
   ("Dist1", "Dist2", "Dist3"),
   ("Distributor 1", "Distributor 2", "Distributor 3"),
   ("Top Distributor 1", "Top Distributor 2", "Top Distributor 3")]

/-- `_pick_existing_headers`: the first variant trio fully present in the
header row, compared case-insensitively. -/
def pickExistingHeaders (header : List String) : Option (String × String × String) :=
  let lower := header.map lowerStr
  DIST_HEADER_VARIANTS.find? (fun trio =>
    lower.contains (lowerStr trio.1) && lower.contains (lowerStr trio.2.1) &&
      lower.contains (lowerStr trio.2.2))

/-- One loaded pool entry. -/
structure Entry where
  name : String
  picks : List String
  monthly : List (String × String)
  dists : List String
deriving DecidableEq, Repr

/-- `(row.get(k) or "")` on a CSV `DictReader` row. -/
def rowGet (row : List (String × String)) (k : String) : String :=
  (row.lookup k).getD ""

/-- The `Pick 1` .. `Pick 10` column names. -/
def pickHeaderNames : List String :=
  (List.range 10).map (fun i => "Pick " ++ toString (i + 1))

/-- `load_entries` on the already-parsed header and rows: distributor guesses
default to `["", "", ""]` when no recognized distributor columns exist. -/
def loadEntries (header : List String) (rows : List (List (String × String))) : List Entry :=
  let dh := pickExistingHeaders header
  rows.map (fun row =>
    { name := pyStrip (rowGet row "Name")
      picks := pickHeaderNames.map (fun h => pyStrip (rowGet row h))
      monthly := MONTHLY_WINNERS.map (fun mw => (mw.1, pyStrip (rowGet row mw.1)))
      dists :=
        match dh with
        | none => ["", "", ""]
        | some trio =>
          [pyStrip (rowGet row trio.1), pyStrip (rowGet row trio.2.1),
           pyStrip (rowGet row trio.2.2)] })

/-! ## Scoring (`score_entry`) -/

/-- The inner scan of the pick loop: the 1-based rank position of the first
ranked title whose normalized form equals `npick`. -/
def scanMatch (npick : String) : Nat → List String → Option Nat
  | _, [] => none
  | pos, r :: rs => if normalize r = npick then some pos else scanMatch npick (pos + 1) rs

/-- Points of the pick at 1-based position `idx`: +1 on the first match
anywhere, plus `pos` more when the matching rank position equals `idx`. -/
def pickPoints (idx : Nat) (pick : String) (actual : List String) : Nat :=
  match scanMatch (normalize pick) 1 actual with
  | none => 0
  | some pos => 1 + (if pos = idx then pos else 0)

/-- The pick loop, `idx` starting at 1. -/
def scorePicksAux (actual : List String) : Nat → List String → Nat
  | _, [] => 0
  | idx, p :: ps => pickPoints idx p actual + scorePicksAux actual (idx + 1) ps

/-- The Top-10 part of `score_entry`. -/
def scorePicks (picks actual : List String) : Nat :=
  scorePicksAux actual 1 picks

/-- The monthly-winner part of `score_entry`: +3 whenever the configured
winner is non-empty (truthy) and the guess normalizes equal to it. -/
def monthlyScore (winners guesses : List (String × String)) : Nat :=
  winners.foldl
    (fun acc mw =>
      if mw.2 ≠ "" ∧ normalize ((guesses.lookup mw.1).getD "") = normalize mw.2 then acc + 3
      else acc)
    0

/-- `DIST_RANK_POINTS = {1: 5, 2: 3, 3: 1}`. -/
def DIST_RANK_POINTS : List (Nat × Nat) := [(1, 5), (2, 3), (3, 1)]

/-- Contribution of the distributor guess at 1-based position `k`: a falsy
guess is skipped; otherwise the rankings are scanned for an entry matching
both the normalized name and the wanted rank. -/
def distContrib (k : Nat) (guess : String) (rankings : List (String × Nat)) : Nat :=
  if guess = "" then 0
  else if rankings.any (fun p => normalize p.1 == normalize guess && p.2 == k) then
    (DIST_RANK_POINTS.lookup k).getD 0
  else 0

/-- The distributor-guess loop, `k` starting at 1. -/
def distScoreAux (rankings : List (String × Nat)) : Nat → List String → Nat
  | _, [] => 0
  | k, g :: gs => distContrib k g rankings + distScoreAux rankings (k + 1) gs

/-- The distributor part of `score_entry`. -/
def distScore (guesses : List String) (rankings : List (String × Nat)) : Nat :=
  distScoreAux rankings 1 guesses

/-- `score_entry`: the three additive parts.  The monthly winners, a module
constant in the source, are passed explicitly. -/
def scoreEntry (picks actual : List String) (winners guesses : List (String × String))
    (distGuesses : List String) (distRankings : List (String × Nat)) : Nat :=
  scorePicks picks actual + monthlyScore winners guesses + distScore distGuesses distRankings

/-! ## Helper lemmas -/

theorem scorePicksAux_eq_sum (actual : List String) :
    ∀ (ps : List String) (idx : Nat),
      scorePicksAux actual idx ps =
        ((List.enumFrom idx ps).map (fun pr => pickPoints pr.1 pr.2 actual)).sum := by
  intro ps
  induction ps with
  | nil => intro idx; rfl
  | cons p ps ih =>
    intro idx
    simp [scorePicksAux, List.enumFrom_cons, ih]

theorem mem_insDesc {α : Type} (key : α → Int) (x : α) (l : List α) (a : α) :
    a ∈ insDesc key x l ↔ a = x ∨ a ∈ l := by
  induction l with
  | nil => simp [insDesc]
  | cons y ys ih =>
    simp only [insDesc]
    split
    · rw [List.mem_cons, ih, List.mem_cons]
      tauto
    · rw [List.mem_cons, List.mem_cons]

theorem pairwise_insDesc {α : Type} (key : α → Int) (x : α) {l : List α}
    (hl : l.Pairwise (fun a b => key b ≤ key a)) :
    (insDesc key x l).Pairwise (fun a b => key b ≤ key a) := by
  induction l with
  | nil => simp [insDesc]
  | cons y ys ih =>
    rw [List.pairwise_cons] at hl
    obtain ⟨hy, hys⟩ := hl
    simp only [insDesc]
    split
    · next hlt =>
      rw [List.pairwise_cons]
      refine ⟨?_, ih hys⟩
      intro a ha
      rcases (mem_insDesc key x ys a).mp ha with rfl | ha
      · omega
      · exact hy a ha
    · next hge =>
      rw [List.pairwise_cons]
      refine ⟨?_, List.pairwise_cons.mpr ⟨hy, hys⟩⟩
      intro a ha
      rcases List.mem_cons.mp ha with rfl | ha
      · omega
      · have := hy a ha
        omega

theorem sortByDesc_pairwise {α : Type} (key : α → Int) (l : List α) :
    (sortByDesc key l).Pairwise (fun a b => key b ≤ key a) := by
  induction l with
  | nil => exact List.Pairwise.nil
  | cons x xs ih => exact pairwise_insDesc key x ih

theorem filter_insDesc {α : Type} (key : α → Int) (g : Int) (x : α) (l : List α) :
    (insDesc key x l).filter (fun y => key y == g) =
      if key x == g then x :: l.filter (fun y => key y == g)
      else l.filter (fun y => key y == g) := by
  induction l with
  | nil =>
    by_cases hxg : key x = g <;> simp [insDesc, List.filter_cons, beq_iff_eq, hxg]
  | cons y ys ih =>
    simp only [insDesc]
    split
    · next hlt =>
      by_cases hyg : key y = g
      · have hxg : ¬ key x = g := by omega
        simp [List.filter_cons, beq_iff_eq, hyg, hxg, ih]
      · by_cases hxg : key x = g <;>
          simp [List.filter_cons, beq_iff_eq, hyg, hxg, ih]
    · next hge =>
      by_cases hxg : key x = g <;> simp [List.filter_cons, beq_iff_eq, hxg]

theorem filter_sortByDesc {α : Type} (key : α → Int) (g : Int) (l : List α) :
    (sortByDesc key l).filter (fun y => key y == g) = l.filter (fun y => key y == g) := by
  induction l with
  | nil => rfl
  | cons x xs ih =>
    simp only [sortByDesc]
    rw [filter_insDesc, ih, List.filter_cons]

theorem mem_of_mem_sortByDesc {α : Type} (key : α → Int) {a : α} :
    ∀ {l : List α}, a ∈ sortByDesc key l → a ∈ l := by
  intro l
  induction l with
  | nil => simp [sortByDesc]
  | cons x xs ih =>
    intro h
    rw [sortByDesc] at h
    rcases (mem_insDesc key x (sortByDesc key xs) a).mp h with rfl | h
    · exact List.mem_cons_self _ _
    · exact List.mem_cons_of_mem _ (ih h)

theorem normMapLookup_some {refs : List String} {k t : String}
    (h : normMapLookup refs k = some t) : t ∈ refs ∧ normalize t = k := by
  unfold normMapLookup at h
  refine ⟨List.mem_reverse.mp (List.mem_of_find?_eq_some h), ?_⟩
  have hp := List.find?_some h
  simpa [beq_iff_eq] using hp

/-! ## Claim theorems -/

/-- C6: `normalize` is total (it is a plain Lean function), lowercases and
removes every character outside `[a-z0-9]`, maps the empty string to itself,
identifies the punctuation / spacing variants of "Lilo & Stitch", and is
idempotent. -/
theorem c6_normalize_total_idem :
    normalize "" = "" ∧
    normalize "Lilo & Stitch" = "lilostitch" ∧
    normalize "lilo-stitch!!" = "lilostitch" ∧
    normalize "LILOSTITCH" = "lilostitch" ∧
    (∀ s : String, normalize (normalize s) = normalize s) :=
  ⟨rfl, by decide, by decide, by decide, normalize_idem⟩

/-- C7: `normalizeDistributor` sends "Walt Disney Pictures" and "Buena Vista"
to "Walt Disney", sends the empty (missing) input to the literal "Unknown",
and otherwise strips its input and maps it through the alias table, names
absent from the table passing through (stripped) verbatim. -/
theorem c7_normalize_distributor :
    normalizeDistributor "Walt Disney Pictures" = "Walt Disney" ∧
    normalizeDistributor "Buena Vista" = "Walt Disney" ∧
    normalizeDistributor "" = "Unknown" ∧
    (∀ s : String, s ≠ "" → DIST_ALIASES.lookup (pyStrip s) = none →
      normalizeDistributor s = pyStrip s) ∧
    (∀ (s c : String), s ≠ "" → DIST_ALIASES.lookup (pyStrip s) = some c →
      normalizeDistributor s = c) := by
  refine ⟨by decide, by decide, by decide, ?_, ?_⟩
  · intro s hs hl
    simp [normalizeDistributor, hs, hl]
  · intro s c hs hl
    simp [normalizeDistributor, hs, hl]

/-- Witness for C7 at concrete inputs: a padded unmapped name passes through
stripped, and a mapped name is sent to its canonical bucket. -/
theorem c7_normalize_distributor_witness :
    normalizeDistributor " Legendary " = "Legendary" ∧
    normalizeDistributor "Sony" = "Sony Pictures" := by
  constructor
  · have h := c7_normalize_distributor.2.2.2.1 " Legendary " (by decide) (by decide)
    rw [h]; decide
  · exact c7_normalize_distributor.2.2.2.2 "Sony" "Sony Pictures" (by decide) (by decide)

/-- C1: the movie-pick part of the score is the sum, over the picks enumerated
from position 1, of an independent per-pick contribution; the contribution of
a pick with no normalized match is 0, that of a pick whose first match sits at
rank position `pos` is `1 + (pos = i ? pos : 0)`; and in the concrete top-2
scenario `[Superman, Weapons]` the position-1 pick "Superman" earns exactly 2
points. -/
theorem c1_pick_scoring :
    (∀ picks actual : List String,
      scorePicks picks actual =
        ((List.enumFrom 1 picks).map (fun pr => pickPoints pr.1 pr.2 actual)).sum) ∧
    (∀ (i : Nat) (p : String) (actual : List String),
      scanMatch (normalize p) 1 actual = none → pickPoints i p actual = 0) ∧
    (∀ (i : Nat) (p : String) (actual : List String) (pos : Nat),
      scanMatch (normalize p) 1 actual = some pos →
        pickPoints i p actual = 1 + (if pos = i then i else 0)) ∧
    pickPoints 1 "Superman" ["Superman", "Weapons"] = 2 ∧
    scorePicks ["Superman", "", "", "", "", "", "", "", "", ""] ["Superman", "Weapons"] = 2 := by
  refine ⟨?_, ?_, ?_, by decide, by decide⟩
  · intro picks actual
    exact scorePicksAux_eq_sum actual picks 1
  · intro i p actual h
    simp [pickPoints, h]
  · intro i p actual pos h
    simp only [pickPoints, h]
    by_cases hpi : pos = i <;> simp [hpi]

/-- Witness for C1: the hypothesized conjuncts applied at concrete inputs — a
pick absent from the ranking contributes 0, a pick matching at rank 2 from
pick position 1 contributes just 1. -/
theorem c1_pick_scoring_witness :
    pickPoints 3 "Zzz" ["Superman"] = 0 ∧
    pickPoints 1 "Weapons" ["Superman", "Weapons"] = 1 := by
  constructor
  · exact c1_pick_scoring.2.1 3 "Zzz" ["Superman"] (by decide)
  · have h := c1_pick_scoring.2.2.1 1 "Weapons" ["Superman", "Weapons"] 2 (by decide)
    rw [h]; decide

/-- C2: a row with a missing / unparseable release date, a date outside the
May 1 – Sep 1 window, or a non-positive gross contributes nothing to the
distributor totals; a row inside the window with positive gross contributes by
splitting its raw distributor string, skipping blank parts, canonicalizing
each part and adding the FULL gross to each; concretely one Warner/Legendary
row of gross 10 yields 10 for both distributors. -/
theorem c2_distributor_aggregation :
    (∀ (pre post : List BORow) (row : BORow),
      ¬(inSummer row.release = true ∧ 0 < row.gross) →
        summerTotals (pre ++ row :: post) = summerTotals (pre ++ post)) ∧
    (∀ (pre : List BORow) (row : BORow),
      inSummer row.release = true → 0 < row.gross →
        summerTotals (pre ++ [row]) = applyRowParts (summerTotals pre) row) ∧
    getTopDistributors [⟨some ⟨2025, 5, 15⟩, "Warner Bros. / Legendary", 10⟩] 5 =
      [("Warner Bros.", 10), ("Legendary", 10)] := by
  refine ⟨?_, ?_, by decide⟩
  · intro pre post row h
    simp only [summerTotals, List.foldl_append, List.foldl_cons]
    rw [if_neg h]
  · intro pre row h1 h2
    simp only [summerTotals, List.foldl_append, List.foldl_cons, List.foldl_nil]
    rw [if_pos ⟨h1, h2⟩]

/-- Witness for C2: a dateless row contributes nothing; an in-window positive
row is folded through the split/normalize/add inner loop. -/
theorem c2_distributor_aggregation_witness :
    summerTotals [⟨none, "Warner Bros.", 10⟩] = [] ∧
    summerTotals [⟨some ⟨2025, 5, 15⟩, "A24", 7⟩] =
      applyRowParts ([] : List (String × Int)) ⟨some ⟨2025, 5, 15⟩, "A24", 7⟩ := by
  constructor
  · have h := c2_distributor_aggregation.1 [] [] ⟨none, "Warner Bros.", 10⟩ (by decide)
    simpa using h
  · have h := c2_distributor_aggregation.2.1 [] ⟨some ⟨2025, 5, 15⟩, "A24", 7⟩
      (by decide) (by decide)
    simpa using h

/-- C4: the Top-N movie output is sorted by gross in non-increasing order, the
underlying sort is stable (records of any fixed gross appear exactly in their
source order), and the output is truncated to at most 10 records. -/
theorem c4_top10_sorted_stable_truncated :
    (∀ (refs : List String) (rows : List (String × Int)),
      (getTop10SummerMovies refs rows).Pairwise (fun a b => b.gross ≤ a.gross)) ∧
    (∀ (refs : List String) (rows : List (String × Int)) (g : Int),
      (sortByDesc (fun m => m.gross) (matchedMovies refs rows)).filter
          (fun m => m.gross == g) =
        (matchedMovies refs rows).filter (fun m => m.gross == g)) ∧
    (∀ (refs : List String) (rows : List (String × Int)),
      (getTop10SummerMovies refs rows).length ≤ 10) := by
  refine ⟨?_, ?_, ?_⟩
  · intro refs rows
    exact List.Pairwise.sublist (List.take_sublist 10 _)
      (sortByDesc_pairwise (fun m => m.gross) (matchedMovies refs rows))
  · intro refs rows g
    exact filter_sortByDesc _ g _
  · intro refs rows
    exact List.length_take_le 10 _

/-- C5: every record in the ranked movie output carries a title taken verbatim
from the reference list and stems from a source row with the same normalized
key and the same gross — a source record with no normalized match among the
reference entries never appears. -/
theorem c5_output_from_reference :
    ∀ (refs : List String) (rows : List (String × Int)) (m : RankedMovie),
      m ∈ getTop10SummerMovies refs rows →
        m.title ∈ refs ∧ ∃ p ∈ rows, normalize p.1 = normalize m.title ∧ p.2 = m.gross := by
  intro refs rows m hm
  have hm1 : m ∈ matchedMovies refs rows :=
    mem_of_mem_sortByDesc _ ((List.take_sublist 10 _).subset hm)
  rw [matchedMovies, List.mem_filterMap] at hm1
  obtain ⟨p, hp, hfp⟩ := hm1
  cases hlook : normMapLookup refs (normalize p.1) with
  | none => rw [hlook] at hfp; simp at hfp
  | some t =>
    rw [hlook] at hfp
    obtain ⟨ht, hnorm⟩ := normMapLookup_some hlook
    simp only [Option.map_some', Option.some.injEq] at hfp
    subst hfp
    exact ⟨ht, p, hp, hnorm.symm, rfl⟩

/-- Witness for C5: the single matched record of a concrete run is titled from
the reference list and tied to its source row. -/
theorem c5_output_from_reference_witness :
    (⟨"Superman", 100⟩ : RankedMovie).title ∈ ["Superman"] ∧
    ∃ p ∈ [("SUPERMAN!", (100 : Int))],
      normalize p.1 = normalize (⟨"Superman", 100⟩ : RankedMovie).title ∧
      p.2 = (⟨"Superman", 100⟩ : RankedMovie).gross :=
  c5_output_from_reference ["Superman"] [("SUPERMAN!", 100)] ⟨"Superman", 100⟩ (by decide)

/-! ## Remaining helper lemmas -/

theorem scanMatch_eq_none {npick : String} :
    ∀ (actual : List String) (pos : Nat), (∀ t ∈ actual, normalize t ≠ npick) →
      scanMatch npick pos actual = none := by
  intro actual
  induction actual with
  | nil => intro pos _; rfl
  | cons r rs ih =>
    intro pos h
    rw [scanMatch, if_neg (h r (List.mem_cons_self r rs))]
    exact ih (pos + 1) (fun t ht => h t (List.mem_cons_of_mem r ht))

theorem monthlyFold_const (guesses : List (String × String)) :
    ∀ (ws : List (String × String)) (acc : Nat),
      (∀ mw ∈ ws,
        ¬(mw.2 ≠ "" ∧ normalize ((guesses.lookup mw.1).getD "") = normalize mw.2)) →
      ws.foldl
        (fun acc mw =>
          if mw.2 ≠ "" ∧ normalize ((guesses.lookup mw.1).getD "") = normalize mw.2 then
            acc + 3
          else acc)
        acc = acc := by
  intro ws
  induction ws with
  | nil => intro acc _; rfl
  | cons w ws ih =>
    intro acc h
    rw [List.foldl_cons, if_neg (h w (List.mem_cons_self w ws))]
    exact ih acc (fun mw hmw => h mw (List.mem_cons_of_mem w hmw))

/-- C3 counterexample: the claim, read literally, demands the rank-1 bonus
whenever the rank-1 distributor's normalized name equals the guess's
normalized key; for the empty guess against the rank-1 distributor "!!!"
(both normalize to the empty key) the code awards nothing, because falsy
guesses are skipped before any lookup. -/
theorem c3_counterexample :
    distScore [""] [("!!!", 1)] = 0 ∧
    normalize "!!!" = normalize "" ∧
    (DIST_RANK_POINTS.lookup 1).getD 0 = 5 := by
  decide

/-- C3 amended: for a NON-EMPTY guess at position `k ≤ 3` the fixed bonus
(5 / 3 / 1) is awarded exactly when some rankings entry carries rank `k` and a
matching normalized name; a guess matching only entries of a different rank
earns 0, and an empty guess is skipped and earns 0.  The distributor part of
the score is the sum of these per-position contributions. -/
theorem c3_rank_guess_amended :
    (∀ (g1 g2 g3 : String) (rankings : List (String × Nat)),
      distScore [g1, g2, g3] rankings =
        distContrib 1 g1 rankings + distContrib 2 g2 rankings + distContrib 3 g3 rankings) ∧
    (∀ (rankings : List (String × Nat)) (k : Nat) (g : String),
      g ≠ "" → (∃ p ∈ rankings, p.2 = k ∧ normalize p.1 = normalize g) →
        distContrib k g rankings = (DIST_RANK_POINTS.lookup k).getD 0) ∧
    (∀ (rankings : List (String × Nat)) (k : Nat) (g : String),
      (∀ p ∈ rankings, p.2 = k → normalize p.1 ≠ normalize g) →
        distContrib k g rankings = 0) ∧
    (∀ (rankings : List (String × Nat)) (k : Nat), distContrib k "" rankings = 0) ∧
    DIST_RANK_POINTS.lookup 1 = some 5 ∧ DIST_RANK_POINTS.lookup 2 = some 3 ∧
    DIST_RANK_POINTS.lookup 3 = some 1 := by
  refine ⟨?_, ?_, ?_, ?_, rfl, rfl, rfl⟩
  · intro g1 g2 g3 rankings
    simp [distScore, distScoreAux, Nat.add_assoc]
  · intro r k g hg hex
    obtain ⟨p, hp, hk, hn⟩ := hex
    have hany : r.any (fun p => normalize p.1 == normalize g && p.2 == k) = true := by
      rw [List.any_eq_true]
      exact ⟨p, hp, by simp [hn, hk]⟩
    simp [distContrib, hg, hany]
  · intro r k g hall
    by_cases hg : g = ""
    · simp [distContrib, hg]
    · have hany : ¬(r.any (fun p => normalize p.1 == normalize g && p.2 == k) = true) := by
        rw [List.any_eq_true]
        rintro ⟨p, hp, hb⟩
        simp only [Bool.and_eq_true, beq_iff_eq] at hb
        exact hall p hp hb.2 hb.1
      rw [distContrib, if_neg hg, if_neg hany]
  · intro r k
    simp [distContrib]

/-- Witness for C3: a correct-rank match earns the rank's bonus; a guess
matching a distributor holding a different rank earns zero. -/
theorem c3_rank_guess_amended_witness :
    distContrib 1 "walt disney" [("Walt Disney", 1)] = (DIST_RANK_POINTS.lookup 1).getD 0 ∧
    distContrib 2 "Universal" [("Universal", 1), ("Warner Bros.", 2)] = 0 := by
  constructor
  · exact c3_rank_guess_amended.2.1 [("Walt Disney", 1)] 1 "walt disney"
      (by decide) (by decide)
  · exact c3_rank_guess_amended.2.2.1 [("Universal", 1), ("Warner Bros.", 2)] 2 "Universal"
      (by decide)

/-- C8 counterexample: a row holding only a parenthetical annotation has a
non-blank raw value but an empty cleaned value, and the loader appends the
empty string instead of omitting the row. -/
theorem c8_counterexample :
    loadSummerList [["(Wide)"]] = [""] := by
  decide

/-- C8 amended: the loader omits rows whose RAW first field is empty or
whitespace-only (the emptiness test precedes annotation stripping), and every
returned title is the cleaned value of such a non-blank row (the first row
additionally BOM-stripped); a row whose value empties only after annotation
stripping yields an empty title in the output. -/
theorem c8_loader_amended :
    ∀ (rows : List (List String)) (t : String),
      t ∈ loadSummerList rows →
        ∃ r ∈ rows, ∃ f, r.head? = some f ∧ pyStrip f ≠ "" ∧
          (t = cleanTitle f ∨ t = cleanTitle (lstripBOM f)) := by
  intro rows t ht
  match rows with
  | [] => simp [loadSummerList] at ht
  | first :: rest =>
    rw [loadSummerList] at ht
    rcases List.mem_append.mp ht with hhead | htail
    · match hf : first.head? with
      | none => rw [hf] at hhead; simp at hhead
      | some f0 =>
        rw [hf] at hhead
        dsimp only at hhead
        by_cases hb : pyStrip f0 = ""
        · rw [if_pos hb] at hhead; simp at hhead
        · rw [if_neg hb] at hhead
          by_cases hh : lowerStr (cleanTitle (lstripBOM f0)) = "movie" ∨
              lowerStr (cleanTitle (lstripBOM f0)) = "title"
          · rw [if_pos hh] at hhead; simp at hhead
          · rw [if_neg hh] at hhead
            rcases List.mem_singleton.mp hhead with rfl
            exact ⟨first, List.mem_cons_self _ _, f0, hf, hb, Or.inr rfl⟩
    · rw [List.mem_filterMap] at htail
      obtain ⟨row, hrow, heq⟩ := htail
      match hf : row.head? with
      | none => rw [hf] at heq; simp at heq
      | some f =>
        rw [hf] at heq
        dsimp only at heq
        by_cases hb : pyStrip f = ""
        · rw [if_pos hb] at heq; simp at heq
        · rw [if_neg hb] at heq
          rcases Option.some.inj heq with rfl
          exact ⟨row, List.mem_cons_of_mem _ hrow, f, hf, hb, Or.inl rfl⟩

/-- Witness for C8: the single title of a concrete run traces back to its
non-blank source row. -/
theorem c8_loader_amended_witness :
    ∃ r ∈ [["Superman"]], ∃ f, List.head? r = some f ∧ pyStrip f ≠ "" ∧
      ("Superman" = cleanTitle f ∨ "Superman" = cleanTitle (lstripBOM f)) :=
  c8_loader_amended [["Superman"]] "Superman" (by decide)

/-- C9 counterexample: against a ranked list whose sole title normalizes to
the empty key, an empty pick at position 1 earns 1 + 1 = 2 points, so an
empty pick does not always contribute 0. -/
theorem c9_counterexample :
    scoreEntry [""] ["!!!"] [] [] [] [] = 2 := by
  decide

/-- C9 amended: the scorer is a total function equal to the sum of its three
parts; an empty pick contributes 0 provided no ranked title normalizes to the
empty key; an empty distributor guess always contributes 0; empty monthly
guesses earn nothing provided no non-empty configured winner normalizes to
the empty key; and months whose configured winner is empty award nothing. -/
theorem c9_empty_values_amended :
    (∀ (picks actual : List String) (winners guesses : List (String × String))
        (dg : List String) (dr : List (String × Nat)),
      scoreEntry picks actual winners guesses dg dr =
        scorePicks picks actual + monthlyScore winners guesses + distScore dg dr) ∧
    (∀ (i : Nat) (actual : List String),
      (∀ t ∈ actual, normalize t ≠ "") → pickPoints i "" actual = 0) ∧
    (∀ (k : Nat) (dr : List (String × Nat)), distContrib k "" dr = 0) ∧
    (∀ (winners guesses : List (String × String)),
      (∀ mw ∈ winners, mw.2 ≠ "" → normalize mw.2 ≠ "") →
      (∀ mw ∈ winners, (guesses.lookup mw.1).getD "" = "") →
        monthlyScore winners guesses = 0) ∧
    (∀ (winners guesses : List (String × String)),
      (∀ mw ∈ winners, mw.2 = "") → monthlyScore winners guesses = 0) := by
  refine ⟨fun _ _ _ _ _ _ => rfl, ?_, ?_, ?_, ?_⟩
  · intro i actual h
    have h0 : normalize "" = "" := by decide
    have hs := @scanMatch_eq_none (normalize "") actual 1 (by rw [h0]; exact h)
    simp [pickPoints, hs]
  · intro k dr
    simp [distContrib]
  · intro winners guesses h1 h2
    apply monthlyFold_const
    intro mw hmw hc
    obtain ⟨hne, heq⟩ := hc
    rw [h2 mw hmw] at heq
    have h0 : normalize "" = "" := by decide
    rw [h0] at heq
    exact h1 mw hmw hne heq.symm
  · intro winners guesses h
    apply monthlyFold_const
    intro mw hmw hc
    exact hc.1 (h mw hmw)

/-- Witness for C9: empty pick, guess and monthly values contribute 0 against
the real monthly winners and a well-formed ranking. -/
theorem c9_empty_values_amended_witness :
    pickPoints 1 "" ["Superman"] = 0 ∧
    monthlyScore MONTHLY_WINNERS [] = 0 ∧
    monthlyScore [("May", "")] [("May", "Lilo & Stitch")] = 0 := by
  refine ⟨?_, ?_, ?_⟩
  · exact c9_empty_values_amended.2.1 1 ["Superman"] (by decide)
  · exact c9_empty_values_amended.2.2.2.1 MONTHLY_WINNERS [] (by decide) (by decide)
  · exact c9_empty_values_amended.2.2.2.2 [("May", "")] [("May", "Lilo & Stitch")] (by decide)

/-- C10: when no recognized distributor-column variant is present in the
header, every loaded entry carries the guesses `["", "", ""]`, and those empty
guesses can never earn distributor points. -/
theorem c10_missing_dist_headers :
    ∀ (header : List String) (rows : List (List (String × String)))
      (rk : List (String × Nat)),
      pickExistingHeaders header = none →
        (∀ e ∈ loadEntries header rows, e.dists = ["", "", ""]) ∧
        distScore ["", "", ""] rk = 0 := by
  intro header rows rk h
  constructor
  · intro e he
    simp only [loadEntries, h, List.mem_map] at he
    obtain ⟨row, _, heq⟩ := he
    rw [← heq]
  · simp [distScore, distScoreAux, distContrib]

/-- Witness for C10: a concrete header without distributor columns yields
entries with empty guesses and no distributor points. -/
theorem c10_missing_dist_headers_witness :
    (∀ e ∈ loadEntries ["Name", "Pick 1"] [[("Name", "Al")]], e.dists = ["", "", ""]) ∧
    distScore ["", "", ""] [("X", 1)] = 0 :=
  c10_missing_dist_headers ["Name", "Pick 1"] [[("Name", "Al")]] [("X", 1)] (by decide)

end SummerPool
